import Mathlib

/-!
Verification development for the spellkit spelling-correction engine
(`src/ext/spellkit/src/{symspell.rs, guards.rs, lib.rs}`).

Strings are modelled as `List Char` (Rust `String`s iterated as code points).
`u64`/`usize` values are modelled as `Nat` (only comparisons and storage are
performed on them, no wrapping arithmetic).  The `f64` frequency threshold is
modelled as an exact rational `ℚ`; the gate comparisons `freq as f64 >= t`
and `freq as f64 >= t * f0 as f64` are modelled exactly over `ℚ`.
Hash maps and hash sets are modelled as association lists / lists with
set-insert semantics; all results proved below are insensitive to iteration
order because `suggestions` sorts by a relation that is antisymmetric on the
values that actually occur.
-/

namespace Spellkit

/-! ### Normalizer (`SymSpell::normalize_word`) -/

/-- Rust `char::is_control` (Unicode category Cc: U+0000..U+001F, U+007F..U+009F). -/
def isRustControl (c : Char) : Bool :=
  c.val < 0x20 || (0x7F ≤ c.val && c.val ≤ 0x9F)

/-- Rust `char::is_whitespace` (Unicode property White_Space). -/
def isRustWhitespace (c : Char) : Bool :=
  (0x09 ≤ c.val && c.val ≤ 0x0D) || c.val == 0x20 || c.val == 0x85 || c.val == 0xA0 ||
  c.val == 0x1680 || (0x2000 ≤ c.val && c.val ≤ 0x200A) || c.val == 0x2028 ||
  c.val == 0x2029 || c.val == 0x202F || c.val == 0x205F || c.val == 0x3000

/-- One code point of Rust `str::to_lowercase`.  The full Unicode case map is
modelled by its restriction to the simple one-to-one mappings; on the ASCII
range (the only code points evaluated concretely in this file) it agrees
exactly with Rust. -/
def rustLowerChar (c : Char) : Char :=
  if 'A' ≤ c && c ≤ 'Z' then Char.ofNat (c.toNat + 32) else c

/-- Rust `str::to_lowercase`, code point by code point. -/
def rustLower (w : List Char) : List Char := w.map rustLowerChar

/-- `SymSpell::normalize_word`: NFKD decomposition, drop control and whitespace
code points, lowercase.  NFKD is the identity on code points that have no
compatibility decomposition, which covers every code point evaluated
concretely in this file; it is modelled as the identity. -/
def normalizeWord (w : List Char) : List Char :=
  rustLower (w.filter (fun c => !isRustControl c && !isRustWhitespace c))

/-! ### Edit distance (`SymSpell::edit_distance`) -/

/-- Unit substitution cost between two code points. -/
def chCost (a b : Char) : Nat := if a = b then 0 else 1

/-- Textbook Levenshtein distance over code points, with unit costs for
insertion, deletion and substitution.  This is the specification-side
definition against which the iterative `editDistance` below is verified. -/
def lev : List Char → List Char → Nat
  | [], ys => ys.length
  | xs, [] => xs.length
  | x :: xs, y :: ys =>
    min (min (lev xs (y :: ys) + 1) (lev (x :: xs) ys + 1)) (lev xs ys + chCost x y)

/-- Inner `for j in 1..=len2` loop of `SymSpell::edit_distance`: walks the
remaining characters of `s2` together with the tail of the previous row,
carrying `prev_row[j-1]`, `prev_row[j]` and the value just written to
`curr_row[j-1]` (`left`). -/
def nextRowAux (c1 : Char) : List Char → List Nat → Nat → List Nat
  | c2 :: s2, pjm1 :: pj :: prest, left =>
    let cost := chCost c1 c2
    let cur := min (min (pj + 1) (left + 1)) (pjm1 + cost)
    cur :: nextRowAux c1 s2 (pj :: prest) cur
  | _, _, _ => []

/-- One iteration of the outer `for i in 1..=len1` loop of
`SymSpell::edit_distance`: `curr_row[0] = i`, then the inner loop. -/
def nextRow (c1 : Char) (s2 : List Char) (prev : List Nat) (i : Nat) : List Nat :=
  i :: nextRowAux c1 s2 prev i

/-- The outer loop of `SymSpell::edit_distance` (row swapping becomes passing
the freshly computed row to the next iteration). -/
def editLoop (s2 : List Char) : List Char → List Nat → Nat → List Nat
  | [], prev, _ => prev
  | c :: s1, prev, i => editLoop s2 s1 (nextRow c s2 prev i) (i + 1)

/-- `SymSpell::edit_distance`: two-row Levenshtein DP over code points, with
the early returns for an empty argument; the result is `prev_row[len2]`, the
last entry of the final row. -/
def editDistance (s1 s2 : List Char) : Nat :=
  if s1.length = 0 then s2.length
  else if s2.length = 0 then s1.length
  else (editLoop s2 s1 (List.range (s2.length + 1)) 1).getLastD 0

/-- Specification of a DP row suffix: starting after the reversed consumed
prefix `pre` of `s2`, the entries are the distances of `a` (the reversed
consumed prefix of `s1`) to the successively longer reversed prefixes of
`s2`. -/
def rowFrom (a : List Char) : List Char → List Char → List Nat
  | _, [] => []
  | pre, c :: rest => lev a (c :: pre) :: rowFrom a (c :: pre) rest

/-! ### Data model (`symspell.rs`) -/

/-- `WordEntry { canonical: String, frequency: u64 }`. -/
structure WordEntry where
  canonical : List Char
  frequency : Nat
deriving DecidableEq

/-- `Suggestion { term: String, distance: usize, frequency: u64 }`. -/
structure Suggestion where
  term : List Char
  distance : Nat
  frequency : Nat
deriving DecidableEq

/-- Lookup in a hash map modelled as an association list. -/
def alookup {β : Type} (k : List Char) : List (List Char × β) → Option β
  | [] => none
  | (k', v) :: rest => if k = k' then some v else alookup k rest

/-- `HashMap::insert` (replace an existing binding, else append). -/
def ainsert {β : Type} (k : List Char) (v : β) : List (List Char × β) → List (List Char × β)
  | [] => [(k, v)]
  | (k', v') :: rest => if k = k' then (k, v) :: rest else (k', v') :: ainsert k v rest

/-- `HashSet::insert` on a set modelled as a duplicate-free list. -/
def setInsert (k : List Char) (s : List (List Char)) : List (List Char) :=
  if k ∈ s then s else s ++ [k]

/-- `SymSpell { deletes, words, max_edit_distance }`. -/
structure SymSpell where
  deletes : List (List Char × List (List Char))
  words : List (List Char × WordEntry)
  maxEditDistance : Nat

/-- `SymSpell::new`. -/
def SymSpell.new (maxEditDistance : Nat) : SymSpell :=
  { deletes := [], words := [], maxEditDistance := maxEditDistance }

/-- `SymSpell::generate_deletes`: every single-code-point deletion of `word`. -/
def generateDeletes (word : List Char) : List (List Char) :=
  (List.range word.length).map (fun i => word.eraseIdx i)

/-- One pass over the queue inside `SymSpell::get_deletes`; returns the
updated processed set, the accumulated delete set, and the queue for the
next edit-distance level (only non-empty deletions are propagated). -/
def gdStep : List (List Char) → List (List Char) → List (List Char) →
    List (List Char) × List (List Char) × List (List Char)
  | [], processed, acc => (processed, acc, [])
  | item :: rest, processed, acc =>
    if item ∈ processed then gdStep rest processed acc
    else
      let dels := generateDeletes item
      let acc' := dels.foldl (fun a d => setInsert d a) acc
      let out := gdStep rest (item :: processed) acc'
      (out.1, out.2.1, dels.filter (fun d => !d.isEmpty) ++ out.2.2)

/-- The `for _ in 0..edit_distance` levels of `SymSpell::get_deletes`. -/
def gdLoop : Nat → List (List Char) → List (List Char) → List (List Char) → List (List Char)
  | 0, _, _, acc => acc
  | n + 1, queue, processed, acc =>
    let out := gdStep queue processed acc
    gdLoop n out.2.2 out.1 out.2.1

/-- `SymSpell::get_deletes`. -/
def getDeletes (word : List Char) (editDistance : Nat) : List (List Char) :=
  if editDistance = 0 then [] else gdLoop editDistance [word] [] []

/-- `deletes.entry(d).or_insert_with(HashSet::new).insert(k)`. -/
def dinsert (d k : List Char) (m : List (List Char × List (List Char))) :
    List (List Char × List (List Char)) :=
  ainsert d (setInsert k ((alookup d m).getD [])) m

/-- `SymSpell::add_word`. -/
def SymSpell.addWord (sp : SymSpell) (normalized canonical : List Char) (frequency : Nat) :
    SymSpell :=
  { sp with
    words := ainsert normalized { canonical := canonical, frequency := frequency } sp.words
    deletes := (getDeletes normalized sp.maxEditDistance).foldl
      (fun m d => dinsert d normalized m) sp.deletes }

/-- `SymSpell::contains`. -/
def SymSpell.contains (sp : SymSpell) (word : List Char) : Bool :=
  (alookup (normalizeWord word) sp.words).isSome

/-- `SymSpell::get_frequency`. -/
def SymSpell.getFrequency (sp : SymSpell) (word : List Char) : Option Nat :=
  (alookup (normalizeWord word) sp.words).map WordEntry.frequency

/-! ### Suggestion ordering (`impl Ord for Suggestion`) -/

/-- Lexicographic order on code-point sequences (Rust `String` comparison;
UTF-8 byte order coincides with code-point order). -/
def lexLeB : List Char → List Char → Bool
  | [], _ => true
  | _ :: _, [] => false
  | a :: as, b :: bs => if a < b then true else if b < a then false else lexLeB as bs

/-- `Suggestion::cmp(a, b) != Greater`: distance ascending, then frequency
descending, then term ascending. -/
def suggLEB (a b : Suggestion) : Bool :=
  if a.distance < b.distance then true
  else if b.distance < a.distance then false
  else if b.frequency < a.frequency then true
  else if a.frequency < b.frequency then false
  else lexLeB a.term b.term

def suggLE (a b : Suggestion) : Prop := suggLEB a b = true

instance : DecidableRel suggLE := fun a b =>
  inferInstanceAs (Decidable (suggLEB a b = true))

/-! ### `SymSpell::suggestions` -/

/-- Accumulator state of the suggestion search: candidates pushed so far and
the seen set of normalized forms. -/
abbrev SugState := List Suggestion × List (List Char)

/-- Body of the `for candidate in candidates` loops (steps 5b and 6 of the
search): skip if seen, verify the edit distance, push the entry. -/
def pushCandidate (sp : SymSpell) (normalized : List Char) (st : SugState)
    (cand : List Char) : SugState :=
  if cand ∈ st.2 then st
  else
    let distance := editDistance normalized cand
    if distance ≤ sp.maxEditDistance then
      match alookup cand sp.words with
      | some entry =>
        (st.1 ++ [{ term := entry.canonical, distance := distance,
                    frequency := entry.frequency }], st.2 ++ [cand])
      | none => st
    else st

def processCandidates (sp : SymSpell) (normalized : List Char) :
    SugState → List (List Char) → SugState
  | st, [] => st
  | st, c :: cs => processCandidates sp normalized (pushCandidate sp normalized st c) cs

/-- Step 5a of the search: the delete variant may itself be a dictionary
word (catches dictionary words shorter than the query). -/
def checkDeleteWord (sp : SymSpell) (normalized : List Char) (st : SugState)
    (delete : List Char) : SugState :=
  if delete ∈ st.2 then st
  else
    match alookup delete sp.words with
    | some entry =>
      let distance := editDistance normalized delete
      if distance ≤ sp.maxEditDistance then
        (st.1 ++ [{ term := entry.canonical, distance := distance,
                    frequency := entry.frequency }], st.2 ++ [delete])
      else st
    | none => st

/-- Body of the `for delete in &input_deletes` loop. -/
def stepDelete (sp : SymSpell) (normalized : List Char) (st : SugState)
    (delete : List Char) : SugState :=
  let st1 := checkDeleteWord sp normalized st delete
  match alookup delete sp.deletes with
  | some candidates => processCandidates sp normalized st1 candidates
  | none => st1

def foldDeletes (sp : SymSpell) (normalized : List Char) :
    SugState → List (List Char) → SugState
  | st, [] => st
  | st, d :: ds => foldDeletes sp normalized (stepDelete sp normalized st d) ds

/-- Initial accumulator: the exact hit (step 3 of the search). -/
def initialState (sp : SymSpell) (normalized : List Char) : SugState :=
  match alookup normalized sp.words with
  | some entry => ([{ term := entry.canonical, distance := 0,
                      frequency := entry.frequency }], [normalized])
  | none => ([], [])

/-- Candidate accumulation of `SymSpell::suggestions` before sorting: the
exact hit, the loop over the query's delete variants, then the direct probe
of `deletes[normalized]` (step 6). -/
def suggestState (sp : SymSpell) (normalized : List Char) : SugState :=
  let st1 := foldDeletes sp normalized (initialState sp normalized)
    (getDeletes normalized sp.maxEditDistance)
  match alookup normalized sp.deletes with
  | some candidates => processCandidates sp normalized st1 candidates
  | none => st1

/-- `SymSpell::suggestions` (the `suggest` surface of the engine): candidate
accumulation, then `suggestions.sort()` and `truncate(max_suggestions)`.
The hash iteration order of the Rust sets is immaterial: the candidate set
is iteration-order-independent and the sort relation is antisymmetric on the
candidates, so the sorted output is unique; Rust's stable sort is modelled
by insertion sort. -/
def SymSpell.suggestions (sp : SymSpell) (word : List Char) (maxSuggestions : Nat) :
    List Suggestion :=
  (List.insertionSort suggLE (suggestState sp (normalizeWord word)).1).take maxSuggestions

/-! ### Regular expressions: the two hardcoded patterns of `Guards::new`,
matched by Brzozowski derivatives.  Both patterns are anchored (`^...$`,
`multi_line` off), so Rust `is_match` coincides with the whole-string
matching that `reMatch` decides. -/

inductive RE where
  | emp : RE
  | eps : RE
  | cls : (Char → Bool) → RE
  | seq : RE → RE → RE
  | alt : RE → RE → RE
  | star : RE → RE

def RE.nullable : RE → Bool
  | .emp => false
  | .eps => true
  | .cls _ => false
  | .seq a b => a.nullable && b.nullable
  | .alt a b => a.nullable || b.nullable
  | .star _ => true

def RE.deriv (c : Char) : RE → RE
  | .emp => .emp
  | .eps => .emp
  | .cls p => if p c then .eps else .emp
  | .seq a b => if a.nullable then .alt (.seq (a.deriv c) b) (b.deriv c) else .seq (a.deriv c) b
  | .alt a b => .alt (a.deriv c) (b.deriv c)
  | .star a => .seq (a.deriv c) (.star a)

def reMatch (r : RE) : List Char → Bool
  | [] => r.nullable
  | c :: rest => reMatch (r.deriv c) rest

def rePlus (r : RE) : RE := .seq r (.star r)

def reOpt (r : RE) : RE := .alt .eps r

def reChar (c : Char) : RE := .cls (fun x => x == c)

def reExact (r : RE) : Nat → RE
  | 0 => .eps
  | n + 1 => .seq r (reExact r n)

def reUpTo (r : RE) : Nat → RE
  | 0 => .eps
  | n + 1 => .alt .eps (.seq r (reUpTo r n))

def clsUpper : RE := .cls (fun c => 'A' ≤ c && c ≤ 'Z')

def clsUpperDigit : RE := .cls (fun c => ('A' ≤ c && c ≤ 'Z') || ('0' ≤ c && c ≤ '9'))

def clsDigit : RE := .cls (fun c => '0' ≤ c && c ≤ '9')

/-- `^[A-Z][A-Z0-9]{1,}[\-]?[A-Z0-9]+$` (gene/protein symbols like CDK10, IL-6). -/
def symbolPattern : RE :=
  .seq clsUpper (.seq (rePlus clsUpperDigit) (.seq (reOpt (reChar '-')) (rePlus clsUpperDigit)))

/-- `^\d{2,7}-\d{2}-\d$` (CAS registry numbers like 7732-18-5);
`\d{2,7}` is two required digits followed by up to five more. -/
def casPattern : RE :=
  .seq (reExact clsDigit 2) (.seq (reUpTo clsDigit 5)
    (.seq (reChar '-') (.seq (reExact clsDigit 2) (.seq (reChar '-') clsDigit))))

/-! ### Guards (`guards.rs`) -/

/-- `Guards`: the four exact-match sets.  The two compiled patterns are the
same global constants in every `Guards` value (`OnceLock` statics), so they
are not part of the state. -/
structure Guards where
  symbolsSet : List (List Char)
  casSet : List (List Char)
  skusSet : List (List Char)
  speciesSet : List (List Char)

/-- `Guards::new`. -/
def Guards.new : Guards :=
  { symbolsSet := [], casSet := [], skusSet := [], speciesSet := [] }

/-- Rust `str::trim`. -/
def rustTrim (l : List Char) : List Char :=
  ((l.dropWhile (fun c => isRustWhitespace c)).reverse.dropWhile
    (fun c => isRustWhitespace c)).reverse

def startsWithHash : List Char → Bool
  | [] => false
  | c :: _ => c == '#'

/-- A line survives the loader filter: non-empty after trimming and not a
`#` comment. -/
def keepLine (line : List Char) : Bool :=
  !(rustTrim line).isEmpty && !startsWithHash (rustTrim line)

/-- Body of the `Guards::load_symbols` loop for one line: the trimmed line
and its lowercase, plus the hyphen-stripped variants when the line contains
a `-`. -/
def loadSymbolsLine (g : Guards) (line : List Char) : Guards :=
  let trimmed := rustTrim line
  if !trimmed.isEmpty && !startsWithHash trimmed then
    let s1 := setInsert trimmed g.symbolsSet
    let s2 := setInsert (rustLower trimmed) s1
    if trimmed.contains '-' then
      let noHyphen := trimmed.filter (fun c => !(c == '-'))
      let s3 := setInsert noHyphen s2
      let s4 := setInsert (rustLower noHyphen) s3
      { g with symbolsSet := s4 }
    else { g with symbolsSet := s2 }
  else g

/-- `Guards::load_symbols`; the file content is modelled as its list of
lines (`content.lines()`). -/
def Guards.loadSymbols (g : Guards) : List (List Char) → Guards
  | [] => g
  | line :: rest => Guards.loadSymbols (loadSymbolsLine g line) rest

/-- Body of the `Guards::load_cas` loop for one line: only the trimmed line. -/
def loadCasLine (g : Guards) (line : List Char) : Guards :=
  let trimmed := rustTrim line
  if !trimmed.isEmpty && !startsWithHash trimmed then
    { g with casSet := setInsert trimmed g.casSet }
  else g

/-- `Guards::load_cas`. -/
def Guards.loadCas (g : Guards) : List (List Char) → Guards
  | [] => g
  | line :: rest => Guards.loadCas (loadCasLine g line) rest

/-- `Guards::is_protected`: the early-return chain of set and pattern checks
written as a disjunction. -/
def Guards.isProtected (g : Guards) (word : List Char) : Bool :=
  let lower := rustLower word
  (decide (word ∈ g.symbolsSet) || decide (lower ∈ g.symbolsSet)) ||
  decide (word ∈ g.casSet) ||
  (decide (word ∈ g.skusSet) || decide (lower ∈ g.skusSet)) ||
  (decide (word ∈ g.speciesSet) || decide (lower ∈ g.speciesSet)) ||
  reMatch symbolPattern word ||
  reMatch casPattern word

/-- `Guards::is_protected_normalized`. -/
def Guards.isProtectedNormalized (g : Guards) (word normalized : List Char) : Bool :=
  g.isProtected word || g.isProtected normalized

/-! ### The corrector (`lib.rs`) -/

/-- A loaded engine state: `CheckerState` with `loaded == true` and
`symspell == Some(..)`; the `f64` threshold is modelled as an exact `ℚ`.
The metadata fields (`loaded_at`, `dictionary_size`, `edit_distance`) are
not read by any operation verified here and are omitted. -/
structure Checker where
  symspell : SymSpell
  guards : Guards
  frequencyThreshold : ℚ

/-- The frequency gate of `correct_if_unknown` / `correct_tokens`:
`freq ≥ threshold` when the original word is unknown, else
`freq ≥ threshold * original_freq`. -/
def gatePass (threshold : ℚ) (originalFreq : Option Nat) (s : Suggestion) : Bool :=
  match originalFreq with
  | none => decide (threshold ≤ (s.frequency : ℚ))
  | some f0 => decide (threshold * (f0 : ℚ) ≤ (s.frequency : ℚ))

/-- `!suggestions.is_empty() && suggestions[0].distance == 0`. -/
def headIsExact : List Suggestion → Bool
  | [] => false
  | s :: _ => s.distance == 0

/-- The `for suggestion in &suggestions { .. return .. }` loop of
`Checker::correct_if_unknown`. -/
def correctionLoop (threshold : ℚ) (originalFreq : Option Nat) :
    List Suggestion → Option (List Char)
  | [] => none
  | s :: rest =>
    if decide (s.distance ≤ 1) && gatePass threshold originalFreq s then some s.term
    else correctionLoop threshold originalFreq rest

/-- `Checker::correct_if_unknown` on a loaded engine. -/
def Checker.correct_if_unknown (st : Checker) (word : List Char) (useGuard : Option Bool) :
    List Char :=
  if useGuard.getD false && st.guards.isProtectedNormalized word (normalizeWord word) then word
  else
    let sugs := st.symspell.suggestions word 5
    if headIsExact sugs then word
    else
      match correctionLoop st.frequencyThreshold (st.symspell.getFrequency word) sugs with
      | some term => term
      | none => word

/-- The inner correction loop of `Checker::correct_tokens`:
`let mut corrected = word; for .. { .. corrected = term; break .. }`. -/
def batchCorrectionLoop (threshold : ℚ) (originalFreq : Option Nat) (word : List Char) :
    List Suggestion → List Char
  | [] => word
  | s :: rest =>
    if decide (s.distance ≤ 1) && gatePass threshold originalFreq s then s.term
    else batchCorrectionLoop threshold originalFreq word rest

/-- The per-token body of `Checker::correct_tokens` (the batch path
duplicates the logic of `correct_if_unknown` inline). -/
def batchBody (st : Checker) (useGuard : Bool) (word : List Char) : List Char :=
  if useGuard && st.guards.isProtectedNormalized word (normalizeWord word) then word
  else
    let sugs := st.symspell.suggestions word 5
    if headIsExact sugs then word
    else batchCorrectionLoop st.frequencyThreshold (st.symspell.getFrequency word) word sugs

/-- `Checker::correct_tokens` on a loaded engine. -/
def Checker.correct_tokens (st : Checker) (tokens : List (List Char))
    (useGuard : Option Bool) : List (List Char) :=
  tokens.map (batchBody st (useGuard.getD false))

/-! ### Specification-side predicates -/

/-- Keys of the dictionary are the normalization of their entry's canonical
form (the hypothesis of spec properties P2/P3; established by the loader). -/
def ValidWords (words : List (List Char × WordEntry)) : Prop :=
  ∀ p ∈ words, p.1 = normalizeWord p.2.canonical

instance (words : List (List Char × WordEntry)) : Decidable (ValidWords words) :=
  inferInstanceAs (Decidable (∀ p ∈ words, p.1 = normalizeWord p.2.canonical))

/-- Every pushed suggestion carries the data of a dictionary entry at some
key `k`, with its distance field equal to the Levenshtein distance from the
normalized query to `k`, bounded by the configured maximum. -/
def SugProp (sp : SymSpell) (normalized : List Char) (s : Suggestion) : Prop :=
  ∃ k e, alookup k sp.words = some e ∧ s.term = e.canonical ∧ s.frequency = e.frequency ∧
    s.distance = lev normalized k ∧ s.distance ≤ sp.maxEditDistance

/-- The dictionary key a suggestion was generated from, recoverable from the
suggestion itself when the dictionary is valid. -/
def keyOf (s : Suggestion) : List Char := normalizeWord s.term

/-- The seen-set mechanism of the search: pushed suggestions have pairwise
distinct keys, all recorded in the seen set. -/
def SeenInv (st : SugState) : Prop :=
  (st.1.map keyOf).Nodup ∧ ∀ s ∈ st.1, keyOf s ∈ st.2

/-- The frequency gate of the claim, written from the claim's words:
`freq ≥ threshold` when `normalize(t)` is not a key of `words`, and
`freq ≥ threshold * f0` when `words[normalize(t)]` has frequency `f0`. -/
def claimGateB (st : Checker) (t : List Char) (s : Suggestion) : Bool :=
  match alookup (normalizeWord t) st.symspell.words with
  | none => decide (st.frequencyThreshold ≤ (s.frequency : ℚ))
  | some e => decide (st.frequencyThreshold * (e.frequency : ℚ) ≤ (s.frequency : ℚ))

/-- The term of the first suggestion in ranked order whose distance is at
most 1 and whose frequency passes the gate, else the token unchanged
(the selector described by the claim for `correct_if_unknown`). -/
def specFirstCorrection (st : Checker) (t : List Char) : List Char :=
  match (st.symspell.suggestions t 5).find?
      (fun s => decide (s.distance ≤ 1) && claimGateB st t s) with
  | some s => s.term
  | none => t

/-- Every set recorded in the deletes map contains only words strictly
longer than the delete-variant key. -/
def DeletesInv (m : List (List Char × List (List Char))) : Prop :=
  ∀ p ∈ m, ∀ k ∈ p.2, p.1.length < k.length

/-- A dictionary state built by a sequence of `add_word` calls
`(normalized, canonical, frequency)`. -/
def applyCalls (sp : SymSpell) : List (List Char × List Char × Nat) → SymSpell
  | [] => sp
  | (n, c, f) :: rest => applyCalls (sp.addWord n c f) rest

/-- The most recent `add_word` call supplying normalized key `k`. -/
def lastEntryFor (k : List Char) : List (List Char × List Char × Nat) →
    Option (List Char × Nat)
  | [] => none
  | (n, c, f) :: rest =>
    match lastEntryFor k rest with
    | some r => some r
    | none => if n = k then some (c, f) else none

/-- The forms `load_symbols` actually inserts for a kept line: the trimmed
line, its lowercase, and — when the line contains `-` — the hyphen-stripped
variant and its lowercase. -/
def symbolForm (line x : List Char) : Prop :=
  x = rustTrim line ∨ x = rustLower (rustTrim line) ∨
    ((rustTrim line).contains '-' = true ∧
      (x = (rustTrim line).filter (fun c => !(c == '-')) ∨
       x = rustLower ((rustTrim line).filter (fun c => !(c == '-')))))

/-! ### Concrete states for witnesses and counterexamples -/

def wThe : List Char := ['t', 'h', 'e']

def wThee : List Char := ['t', 'h', 'e', 'e']

/-- A loaded engine: dictionary `{the: 1000}`, `D = 1`, threshold `10`. -/
def ckW : Checker :=
  { symspell := (SymSpell.new 1).addWord wThe wThe 1000
    guards := Guards.new
    frequencyThreshold := 10 }

/-- Dictionary `{a: 10}` at `D = 1`: the empty string is a delete variant of
`a`, so `deletes[""] = {a}`. -/
def spE : SymSpell := (SymSpell.new 1).addWord ['a'] ['a'] 10

/-- Dictionary `{abc: 5}` at `D = 1`: no word within one deletion of the
empty string. -/
def spNE : SymSpell := (SymSpell.new 1).addWord ['a', 'b', 'c'] ['a', 'b', 'c'] 5

/-- Two `add_word` calls on the same key with decreasing frequency. -/
def spC6 : SymSpell := applyCalls (SymSpell.new 1) [(['a'], ['x'], 5), (['a'], ['y'], 3)]

/-- Two keys whose entries share the canonical term `x`. -/
def spC8 : SymSpell :=
  ((SymSpell.new 1).addWord ['a', 'b'] ['x'] 1).addWord ['a', 'c'] ['x'] 2

/-- Guards loaded via `load_cas` with the single line `AB`. -/
def gAB : Guards := Guards.new.loadCas [['A', 'B']]

def wCDK10 : List Char := ['C', 'D', 'K', '1', '0']

def callsC9 : List (List Char × List Char × Nat) := [(['a', 'b'], ['a', 'b'], 1)]

/-! ### Theorems: edit distance DP correctness -/

theorem lev_nil_left (ys : List Char) : lev [] ys = ys.length := by
  cases ys <;> simp [lev]

theorem lev_nil_right (xs : List Char) : lev xs [] = xs.length := by
  cases xs <;> simp [lev]

theorem lev_cons_cons (x y : Char) (xs ys : List Char) :
    lev (x :: xs) (y :: ys) =
      min (min (lev xs (y :: ys) + 1) (lev (x :: xs) ys + 1)) (lev xs ys + chCost x y) := by
  simp [lev]

theorem lev_self (xs : List Char) : lev xs xs = 0 := by
  induction xs with
  | nil => simp [lev]
  | cons x xs ih =>
    rw [lev_cons_cons, ih, chCost, if_pos rfl]
    omega

set_option maxHeartbeats 1600000 in
theorem lev_snoc_aux (x y : Char) :
    ∀ (n : Nat) (xs ys : List Char), xs.length + ys.length ≤ n →
      lev (xs ++ [x]) (ys ++ [y]) =
        min (min (lev xs (ys ++ [y]) + 1) (lev (xs ++ [x]) ys + 1)) (lev xs ys + chCost x y) := by
  intro n
  induction n with
  | zero =>
    intro xs ys h
    match xs, ys with
    | [], [] => simpa using lev_cons_cons x y [] []
    | [], b :: ys' => simp at h
    | a :: xs', _ => simp at h
  | succ n ih =>
    intro xs ys h
    match xs, ys with
    | [], [] => simpa using lev_cons_cons x y [] []
    | [], b :: ys' =>
      have e1 := ih [] ys' (by simp at h ⊢; omega)
      simp only [List.nil_append] at e1
      simp only [List.nil_append, List.cons_append]
      rw [lev_cons_cons x b [] (ys' ++ [y]), lev_cons_cons x b [] ys', e1]
      simp only [lev_nil_left, List.length_cons, List.length_append, List.length_singleton,
        List.length_nil]
      omega
    | a :: xs', [] =>
      have e2 := ih xs' [] (by simp at h ⊢; omega)
      simp only [List.nil_append] at e2
      simp only [List.nil_append, List.cons_append]
      rw [lev_cons_cons a y (xs' ++ [x]) [], lev_cons_cons a y xs' [], e2]
      simp only [lev_nil_right, List.length_cons, List.length_append, List.length_singleton,
        List.length_nil]
      omega
    | a :: xs', b :: ys' =>
      have e1 := ih xs' (b :: ys') (by simp at h ⊢; omega)
      have e2 := ih (a :: xs') ys' (by simp at h ⊢; omega)
      have e3 := ih xs' ys' (by simp at h ⊢; omega)
      simp only [List.cons_append] at e1 e2 e3 ⊢
      rw [lev_cons_cons a b (xs' ++ [x]) (ys' ++ [y]), lev_cons_cons a b xs' (ys' ++ [y]),
        lev_cons_cons a b (xs' ++ [x]) ys', lev_cons_cons a b xs' ys', e1, e2, e3]
      refine le_antisymm ?_ ?_ <;>
        simp only [le_min_iff, min_le_iff, add_le_add_iff_right, Nat.add_min_add_right] <;>
        omega

/-- The Levenshtein recursion also holds when a character is appended at the
end of both arguments. -/
theorem lev_snoc (x y : Char) (xs ys : List Char) :
    lev (xs ++ [x]) (ys ++ [y]) =
      min (min (lev xs (ys ++ [y]) + 1) (lev (xs ++ [x]) ys + 1)) (lev xs ys + chCost x y) :=
  lev_snoc_aux x y (xs.length + ys.length) xs ys le_rfl

theorem lev_reverse_aux :
    ∀ (n : Nat) (xs ys : List Char), xs.length + ys.length ≤ n →
      lev xs.reverse ys.reverse = lev xs ys := by
  intro n
  induction n with
  | zero =>
    intro xs ys h
    match xs, ys with
    | [], [] => simp
    | [], b :: ys' => simp at h
    | a :: xs', _ => simp at h
  | succ n ih =>
    intro xs ys h
    match xs, ys with
    | [], ys => simp [lev_nil_left]
    | x :: xs', [] => simp [lev_nil_right]
    | x :: xs', y :: ys' =>
      have e1 := ih xs' (y :: ys') (by simp at h ⊢; omega)
      have e2 := ih (x :: xs') ys' (by simp at h ⊢; omega)
      have e3 := ih xs' ys' (by simp at h ⊢; omega)
      have hs := lev_snoc x y xs'.reverse ys'.reverse
      simp only [List.reverse_cons]
      rw [hs]
      rw [show xs'.reverse ++ [x] = (x :: xs').reverse from (List.reverse_cons x xs').symm,
        show ys'.reverse ++ [y] = (y :: ys').reverse from (List.reverse_cons y ys').symm,
        e1, e2, e3, lev_cons_cons]

/-- Levenshtein distance is invariant under reversing both arguments. -/
theorem lev_reverse (xs ys : List Char) :
    lev xs.reverse ys.reverse = lev xs ys :=
  lev_reverse_aux (xs.length + ys.length) xs ys le_rfl

theorem nextRowAux_spec (x : Char) :
    ∀ (rest pre a : List Char),
      nextRowAux x rest (lev a pre :: rowFrom a pre rest) (lev (x :: a) pre) =
        rowFrom (x :: a) pre rest := by
  intro rest
  induction rest with
  | nil => intro pre a; rfl
  | cons c rest' ih =>
    intro pre a
    simp only [rowFrom, nextRowAux]
    rw [show min (min (lev a (c :: pre) + 1) (lev (x :: a) pre + 1)) (lev a pre + chCost x c) =
        lev (x :: a) (c :: pre) from (lev_cons_cons x c a pre).symm]
    rw [ih (c :: pre) a]

theorem editLoop_spec (s2 : List Char) :
    ∀ (s1rest a : List Char),
      editLoop s2 s1rest (lev a [] :: rowFrom a [] s2) (a.length + 1) =
        lev (s1rest.reverse ++ a) [] :: rowFrom (s1rest.reverse ++ a) [] s2 := by
  intro s1rest
  induction s1rest with
  | nil => intro a; simp [editLoop]
  | cons c rest ih =>
    intro a
    have hrow : nextRow c s2 (lev a [] :: rowFrom a [] s2) (a.length + 1) =
        lev (c :: a) [] :: rowFrom (c :: a) [] s2 := by
      have hlen : a.length + 1 = lev (c :: a) [] := by
        rw [lev_nil_right]; simp
      rw [nextRow, hlen, nextRowAux_spec c s2 [] a]
    rw [editLoop, hrow, show a.length + 1 + 1 = (c :: a).length + 1 by simp, ih (c :: a)]
    simp

theorem rowFrom_nil_arg :
    ∀ (rest pre : List Char), rowFrom [] pre rest = List.range' (pre.length + 1) rest.length := by
  intro rest
  induction rest with
  | nil => intro pre; rfl
  | cons c rest' ih =>
    intro pre
    show lev [] (c :: pre) :: rowFrom [] (c :: pre) rest' =
      List.range' (pre.length + 1) (c :: rest').length
    rw [ih (c :: pre), lev_nil_left]
    show (pre.length + 1) :: List.range' (pre.length + 1 + 1) rest'.length =
      List.range' (pre.length + 1) (rest'.length + 1)
    rfl

theorem rowFrom_getLastD (a : List Char) :
    ∀ (rest pre : List Char) (d : Nat),
      (lev a pre :: rowFrom a pre rest).getLastD d = lev a (rest.reverse ++ pre) := by
  intro rest
  induction rest with
  | nil => intro pre d; simp [rowFrom]
  | cons c rest' ih =>
    intro pre d
    simp only [rowFrom]
    rw [List.getLastD_cons, ih (c :: pre) (lev a pre)]
    simp

/-- The iterative `edit_distance` of the source computes exactly the
Levenshtein distance. -/
theorem editDistance_eq_lev (s1 s2 : List Char) : editDistance s1 s2 = lev s1 s2 := by
  unfold editDistance
  by_cases h1 : s1.length = 0
  · obtain rfl := List.length_eq_zero.mp h1
    simp [lev_nil_left]
  · rw [if_neg h1]
    by_cases h2 : s2.length = 0
    · obtain rfl := List.length_eq_zero.mp h2
      simp [lev_nil_right]
    · rw [if_neg h2]
      have h0 : lev ([] : List Char) [] = 0 := by rw [lev_nil_left]; rfl
      have hrange : List.range (s2.length + 1) = lev ([] : List Char) [] :: rowFrom [] [] s2 := by
        rw [h0, rowFrom_nil_arg s2 [], List.range_eq_range']
        rfl
      have hloop := editLoop_spec s2 s1 []
      simp only [List.append_nil, List.length_nil, Nat.zero_add] at hloop
      rw [hrange, hloop, rowFrom_getLastD s1.reverse s2 [] 0]
      simp [lev_reverse]

/-! ### The suggestion comparator is a total preorder -/

theorem lexLeB_total : ∀ (a b : List Char), lexLeB a b = true ∨ lexLeB b a = true := by
  intro a
  induction a with
  | nil => intro b; left; rfl
  | cons x xs ih =>
    intro b
    cases b with
    | nil => right; rfl
    | cons y ys =>
      simp only [lexLeB]
      rcases lt_trichotomy x y with h | h | h
      · left; simp [h]
      · subst h
        simp only [lt_irrefl, if_false]
        exact ih ys
      · right; simp [h]

theorem lexLeB_trans : ∀ (a b c : List Char),
    lexLeB a b = true → lexLeB b c = true → lexLeB a c = true := by
  intro a
  induction a with
  | nil => intro b c _ _; rfl
  | cons x xs ih =>
    intro b c hab hbc
    cases b with
    | nil => simp [lexLeB] at hab
    | cons y ys =>
      cases c with
      | nil => simp [lexLeB] at hbc
      | cons z zs =>
        simp only [lexLeB] at hab hbc ⊢
        by_cases hxy : x < y
        · by_cases hyz : y < z
          · simp [lt_trans hxy hyz]
          · by_cases hzy : z < y
            · simp only [if_pos hyz, if_neg hyz] at hbc
              simp [if_neg hyz, if_pos hzy] at hbc
            · have : y = z := le_antisymm (not_lt.mp hzy) (not_lt.mp hyz)
              subst this
              simp [hxy]
        · by_cases hyx : y < x
          · simp [if_neg hxy, if_pos hyx] at hab
          · have : x = y := le_antisymm (not_lt.mp hyx) (not_lt.mp hxy)
            subst this
            simp only [if_neg hxy, lt_irrefl, if_false] at hab
            by_cases hyz : x < z
            · simp [hyz]
            · by_cases hzy : z < x
              · simp [if_neg hyz, if_pos hzy] at hbc
              · have : x = z := le_antisymm (not_lt.mp hzy) (not_lt.mp hyz)
                subst this
                simp only [lt_irrefl, if_false] at hbc ⊢
                exact ih ys zs hab hbc

theorem suggLEB_iff (a b : Suggestion) : suggLEB a b = true ↔
    a.distance < b.distance ∨ (a.distance = b.distance ∧
      (b.frequency < a.frequency ∨ (a.frequency = b.frequency ∧ lexLeB a.term b.term = true))) := by
  unfold suggLEB
  split_ifs with h1 h2 h3 h4
  · exact ⟨fun _ => Or.inl h1, fun _ => rfl⟩
  · constructor
    · intro h; exact absurd h (by simp)
    · intro h; rcases h with h | ⟨h, _⟩ <;> omega
  · constructor
    · intro _; exact Or.inr ⟨by omega, Or.inl h3⟩
    · intro _; rfl
  · constructor
    · intro h; exact absurd h (by simp)
    · intro h; rcases h with h | ⟨h, h' | ⟨h', _⟩⟩ <;> omega
  · constructor
    · intro h; exact Or.inr ⟨by omega, Or.inr ⟨by omega, h⟩⟩
    · intro h
      rcases h with h | ⟨h, h' | ⟨h', hl⟩⟩
      · omega
      · omega
      · exact hl

theorem suggLEB_total (a b : Suggestion) : suggLEB a b = true ∨ suggLEB b a = true := by
  rw [suggLEB_iff, suggLEB_iff]
  rcases Nat.lt_trichotomy a.distance b.distance with hd | hd | hd
  · exact Or.inl (Or.inl hd)
  · rcases Nat.lt_trichotomy a.frequency b.frequency with hf | hf | hf
    · exact Or.inr (Or.inr ⟨hd.symm, Or.inl hf⟩)
    · rcases lexLeB_total a.term b.term with h | h
      · exact Or.inl (Or.inr ⟨hd, Or.inr ⟨hf, h⟩⟩)
      · exact Or.inr (Or.inr ⟨hd.symm, Or.inr ⟨hf.symm, h⟩⟩)
    · exact Or.inl (Or.inr ⟨hd, Or.inl hf⟩)
  · exact Or.inr (Or.inl hd)

theorem suggLEB_trans (a b c : Suggestion) (hab : suggLEB a b = true)
    (hbc : suggLEB b c = true) : suggLEB a c = true := by
  rw [suggLEB_iff] at hab hbc ⊢
  rcases hab with h | ⟨hd1, hf⟩ <;> rcases hbc with h2 | ⟨hd2, hf2⟩
  · exact Or.inl (by omega)
  · exact Or.inl (by omega)
  · exact Or.inl (by omega)
  · rcases hf with hfl | ⟨hfe, ht⟩ <;> rcases hf2 with hfl2 | ⟨hfe2, ht2⟩
    · exact Or.inr ⟨by omega, Or.inl (by omega)⟩
    · exact Or.inr ⟨by omega, Or.inl (by omega)⟩
    · exact Or.inr ⟨by omega, Or.inl (by omega)⟩
    · exact Or.inr ⟨by omega, Or.inr ⟨by omega, lexLeB_trans _ _ _ ht ht2⟩⟩

instance : IsTotal Suggestion suggLE := ⟨suggLEB_total⟩

instance : IsTrans Suggestion suggLE := ⟨suggLEB_trans⟩

theorem suggLE_distance_le {a b : Suggestion} (h : suggLE a b) : a.distance ≤ b.distance := by
  rw [suggLE, suggLEB_iff] at h
  rcases h with h | ⟨h, _⟩ <;> omega

/-! ### Invariants of the suggestion search -/

theorem alookup_mem {β : Type} {k : List Char} {m : List (List Char × β)} {v : β}
    (h : alookup k m = some v) : (k, v) ∈ m := by
  induction m with
  | nil => simp [alookup] at h
  | cons p rest ih =>
    obtain ⟨k', v'⟩ := p
    simp only [alookup] at h
    by_cases e : k = k'
    · subst e
      rw [if_pos rfl] at h
      injection h with h
      subst h
      exact List.mem_cons_self _ _
    · rw [if_neg e] at h
      exact List.mem_cons_of_mem _ (ih h)

theorem pushCandidate_sugProp {sp : SymSpell} {normalized : List Char} {st : SugState}
    {cand : List Char} (h : ∀ s ∈ st.1, SugProp sp normalized s) :
    ∀ s ∈ (pushCandidate sp normalized st cand).1, SugProp sp normalized s := by
  unfold pushCandidate
  by_cases h1 : cand ∈ st.2
  · rw [if_pos h1]; exact h
  · rw [if_neg h1]
    by_cases h2 : editDistance normalized cand ≤ sp.maxEditDistance
    · rw [if_pos h2]
      cases halo : alookup cand sp.words with
      | none => exact h
      | some entry =>
        intro s hs
        rcases List.mem_append.mp hs with hs | hs
        · exact h s hs
        · rw [List.mem_singleton] at hs
          subst hs
          exact ⟨cand, entry, halo, rfl, rfl, editDistance_eq_lev normalized cand,
            by simpa using h2⟩
    · rw [if_neg h2]; exact h

theorem checkDeleteWord_sugProp {sp : SymSpell} {normalized : List Char} {st : SugState}
    {delete : List Char} (h : ∀ s ∈ st.1, SugProp sp normalized s) :
    ∀ s ∈ (checkDeleteWord sp normalized st delete).1, SugProp sp normalized s := by
  unfold checkDeleteWord
  by_cases h1 : delete ∈ st.2
  · rw [if_pos h1]; exact h
  · rw [if_neg h1]
    cases halo : alookup delete sp.words with
    | none => exact h
    | some entry =>
      dsimp only
      by_cases h2 : editDistance normalized delete ≤ sp.maxEditDistance
      · rw [if_pos h2]
        intro s hs
        rcases List.mem_append.mp hs with hs | hs
        · exact h s hs
        · rw [List.mem_singleton] at hs
          subst hs
          exact ⟨delete, entry, halo, rfl, rfl, editDistance_eq_lev normalized delete,
            by simpa using h2⟩
      · rw [if_neg h2]; exact h

theorem processCandidates_sugProp {sp : SymSpell} {normalized : List Char} :
    ∀ (cs : List (List Char)) (st : SugState),
      (∀ s ∈ st.1, SugProp sp normalized s) →
      ∀ s ∈ (processCandidates sp normalized st cs).1, SugProp sp normalized s := by
  intro cs
  induction cs with
  | nil => intro st h; exact h
  | cons c cs ih =>
    intro st h
    exact ih _ (pushCandidate_sugProp h)

theorem stepDelete_sugProp {sp : SymSpell} {normalized : List Char} {st : SugState}
    {delete : List Char} (h : ∀ s ∈ st.1, SugProp sp normalized s) :
    ∀ s ∈ (stepDelete sp normalized st delete).1, SugProp sp normalized s := by
  unfold stepDelete
  cases alookup delete sp.deletes with
  | none => exact checkDeleteWord_sugProp h
  | some candidates => exact processCandidates_sugProp _ _ (checkDeleteWord_sugProp h)

theorem foldDeletes_sugProp {sp : SymSpell} {normalized : List Char} :
    ∀ (ds : List (List Char)) (st : SugState),
      (∀ s ∈ st.1, SugProp sp normalized s) →
      ∀ s ∈ (foldDeletes sp normalized st ds).1, SugProp sp normalized s := by
  intro ds
  induction ds with
  | nil => intro st h; exact h
  | cons d ds ih =>
    intro st h
    exact ih _ (stepDelete_sugProp h)

theorem initialState_sugProp (sp : SymSpell) (normalized : List Char) :
    ∀ s ∈ (initialState sp normalized).1, SugProp sp normalized s := by
  unfold initialState
  cases halo : alookup normalized sp.words with
  | none => intro s hs; simp at hs
  | some entry =>
    intro s hs
    simp only [List.mem_singleton] at hs
    subst hs
    exact ⟨normalized, entry, halo, rfl, rfl, (lev_self _).symm, Nat.zero_le _⟩

theorem suggestState_sugProp (sp : SymSpell) (normalized : List Char) :
    ∀ s ∈ (suggestState sp normalized).1, SugProp sp normalized s := by
  unfold suggestState
  cases alookup normalized sp.deletes with
  | none => exact foldDeletes_sugProp _ _ (initialState_sugProp sp normalized)
  | some candidates =>
    exact processCandidates_sugProp _ _ (foldDeletes_sugProp _ _ (initialState_sugProp sp normalized))

/-- Every suggestion returned by `SymSpell::suggestions` satisfies `SugProp`. -/
theorem suggestions_sugProp (sp : SymSpell) (word : List Char) (maxSuggestions : Nat) :
    ∀ s ∈ sp.suggestions word maxSuggestions, SugProp sp (normalizeWord word) s := by
  intro s hs
  unfold SymSpell.suggestions at hs
  exact suggestState_sugProp sp _ s ((List.mem_insertionSort suggLE).mp (List.mem_of_mem_take hs))

theorem SeenInv.push {st : SugState} {s : Suggestion} {cand : List Char}
    (h : SeenInv st) (hkey : keyOf s = cand) (hnot : cand ∉ st.2) :
    SeenInv (st.1 ++ [s], st.2 ++ [cand]) := by
  constructor
  · rw [List.map_append]
    refine List.Nodup.append h.1 (by simp) ?_
    intro x hx hx2
    simp only [List.map_cons, List.map_nil, List.mem_singleton] at hx2
    subst hx2
    rw [hkey] at hx
    rcases List.mem_map.mp hx with ⟨t, ht, hkt⟩
    exact hnot (hkt ▸ h.2 t ht)
  · intro t ht
    rcases List.mem_append.mp ht with ht | ht
    · exact List.mem_append_left _ (h.2 t ht)
    · rw [List.mem_singleton] at ht
      subst ht
      rw [hkey]
      exact List.mem_append_right _ (List.mem_singleton_self _)

theorem pushCandidate_seenInv {sp : SymSpell} {normalized : List Char} {st : SugState}
    {cand : List Char} (hv : ValidWords sp.words) (h : SeenInv st) :
    SeenInv (pushCandidate sp normalized st cand) := by
  unfold pushCandidate
  by_cases h1 : cand ∈ st.2
  · rw [if_pos h1]; exact h
  · rw [if_neg h1]
    by_cases h2 : editDistance normalized cand ≤ sp.maxEditDistance
    · rw [if_pos h2]
      cases halo : alookup cand sp.words with
      | none => exact h
      | some entry =>
        have hk : cand = normalizeWord entry.canonical := hv _ (alookup_mem halo)
        exact h.push (by rw [keyOf, ← hk]) h1
    · rw [if_neg h2]; exact h

theorem checkDeleteWord_seenInv {sp : SymSpell} {normalized : List Char} {st : SugState}
    {delete : List Char} (hv : ValidWords sp.words) (h : SeenInv st) :
    SeenInv (checkDeleteWord sp normalized st delete) := by
  unfold checkDeleteWord
  by_cases h1 : delete ∈ st.2
  · rw [if_pos h1]; exact h
  · rw [if_neg h1]
    cases halo : alookup delete sp.words with
    | none => exact h
    | some entry =>
      dsimp only
      by_cases h2 : editDistance normalized delete ≤ sp.maxEditDistance
      · rw [if_pos h2]
        have hk : delete = normalizeWord entry.canonical := hv _ (alookup_mem halo)
        exact h.push (by rw [keyOf, ← hk]) h1
      · rw [if_neg h2]; exact h

theorem processCandidates_seenInv {sp : SymSpell} {normalized : List Char}
    (hv : ValidWords sp.words) :
    ∀ (cs : List (List Char)) (st : SugState), SeenInv st →
      SeenInv (processCandidates sp normalized st cs) := by
  intro cs
  induction cs with
  | nil => intro st h; exact h
  | cons c cs ih => intro st h; exact ih _ (pushCandidate_seenInv hv h)

theorem stepDelete_seenInv {sp : SymSpell} {normalized : List Char} {st : SugState}
    {delete : List Char} (hv : ValidWords sp.words) (h : SeenInv st) :
    SeenInv (stepDelete sp normalized st delete) := by
  unfold stepDelete
  cases alookup delete sp.deletes with
  | none => exact checkDeleteWord_seenInv hv h
  | some candidates => exact processCandidates_seenInv hv _ _ (checkDeleteWord_seenInv hv h)

theorem foldDeletes_seenInv {sp : SymSpell} {normalized : List Char}
    (hv : ValidWords sp.words) :
    ∀ (ds : List (List Char)) (st : SugState), SeenInv st →
      SeenInv (foldDeletes sp normalized st ds) := by
  intro ds
  induction ds with
  | nil => intro st h; exact h
  | cons d ds ih => intro st h; exact ih _ (stepDelete_seenInv hv h)

/-! ### Monotonicity: the search only appends suggestions -/

theorem pushCandidate_mem {sp : SymSpell} {normalized : List Char} {st : SugState}
    {cand : List Char} {s : Suggestion} (h : s ∈ st.1) :
    s ∈ (pushCandidate sp normalized st cand).1 := by
  unfold pushCandidate
  by_cases h1 : cand ∈ st.2
  · rw [if_pos h1]; exact h
  · rw [if_neg h1]
    by_cases h2 : editDistance normalized cand ≤ sp.maxEditDistance
    · rw [if_pos h2]
      cases alookup cand sp.words with
      | none => exact h
      | some entry => exact List.mem_append_left _ h
    · rw [if_neg h2]; exact h

theorem checkDeleteWord_mem {sp : SymSpell} {normalized : List Char} {st : SugState}
    {delete : List Char} {s : Suggestion} (h : s ∈ st.1) :
    s ∈ (checkDeleteWord sp normalized st delete).1 := by
  unfold checkDeleteWord
  by_cases h1 : delete ∈ st.2
  · rw [if_pos h1]; exact h
  · rw [if_neg h1]
    cases alookup delete sp.words with
    | none => exact h
    | some entry =>
      dsimp only
      by_cases h2 : editDistance normalized delete ≤ sp.maxEditDistance
      · rw [if_pos h2]; exact List.mem_append_left _ h
      · rw [if_neg h2]; exact h

theorem processCandidates_mem {sp : SymSpell} {normalized : List Char} {s : Suggestion} :
    ∀ (cs : List (List Char)) (st : SugState), s ∈ st.1 →
      s ∈ (processCandidates sp normalized st cs).1 := by
  intro cs
  induction cs with
  | nil => intro st h; exact h
  | cons c cs ih => intro st h; exact ih _ (pushCandidate_mem h)

theorem stepDelete_mem {sp : SymSpell} {normalized : List Char} {st : SugState}
    {delete : List Char} {s : Suggestion} (h : s ∈ st.1) :
    s ∈ (stepDelete sp normalized st delete).1 := by
  unfold stepDelete
  cases alookup delete sp.deletes with
  | none => exact checkDeleteWord_mem h
  | some candidates => exact processCandidates_mem _ _ (checkDeleteWord_mem h)

theorem foldDeletes_mem {sp : SymSpell} {normalized : List Char} {s : Suggestion} :
    ∀ (ds : List (List Char)) (st : SugState), s ∈ st.1 →
      s ∈ (foldDeletes sp normalized st ds).1 := by
  intro ds
  induction ds with
  | nil => intro st h; exact h
  | cons d ds ih => intro st h; exact ih _ (stepDelete_mem h)

/-! ### Sortedness of the output -/

theorem suggestions_pairwise (sp : SymSpell) (word : List Char) (maxSuggestions : Nat) :
    List.Pairwise suggLE (sp.suggestions word maxSuggestions) := by
  unfold SymSpell.suggestions
  exact List.Pairwise.sublist (List.take_sublist _ _) (List.sorted_insertionSort suggLE _)

/-- When the normalized query is a dictionary key, the distance-0 suggestion
is pushed first and, being minimal in the sort order, survives at the head:
`suggestions[0].distance == 0`. -/
theorem headIsExact_of_known {sp : SymSpell} {word : List Char} {entry : WordEntry}
    (halo : alookup (normalizeWord word) sp.words = some entry) :
    headIsExact (sp.suggestions word 5) = true := by
  have hbase : Suggestion.mk entry.canonical 0 entry.frequency ∈
      (initialState sp (normalizeWord word)).1 := by
    unfold initialState
    rw [halo]
    exact List.mem_singleton_self _
  have hmem : Suggestion.mk entry.canonical 0 entry.frequency ∈
      (suggestState sp (normalizeWord word)).1 := by
    unfold suggestState
    cases alookup (normalizeWord word) sp.deletes with
    | none => exact foldDeletes_mem _ _ hbase
    | some candidates => exact processCandidates_mem _ _ (foldDeletes_mem _ _ hbase)
  have hmem' : Suggestion.mk entry.canonical 0 entry.frequency ∈
      List.insertionSort suggLE (suggestState sp (normalizeWord word)).1 :=
    (List.mem_insertionSort suggLE).mpr hmem
  unfold SymSpell.suggestions
  cases hsort : List.insertionSort suggLE (suggestState sp (normalizeWord word)).1 with
  | nil => rw [hsort] at hmem'; simp at hmem'
  | cons shead srest =>
    rw [hsort] at hmem'
    have hsorted : List.Pairwise suggLE (shead :: srest) := by
      rw [← hsort]
      exact List.sorted_insertionSort suggLE _
    have hd0 : shead.distance = 0 := by
      rcases List.mem_cons.mp hmem' with he | hm
      · rw [← he]
      · have := suggLE_distance_le (List.rel_of_pairwise_cons hsorted hm)
        simpa using this
    simp [headIsExact, hd0]

theorem initialState_seenInv (sp : SymSpell) (normalized : List Char)
    (hv : ValidWords sp.words) : SeenInv (initialState sp normalized) := by
  unfold initialState
  cases halo : alookup normalized sp.words with
  | none => exact ⟨by simp, by simp⟩
  | some entry =>
    constructor
    · simp
    · intro s hs
      simp only [List.mem_singleton] at hs
      subst hs
      have hk : normalized = normalizeWord entry.canonical := hv _ (alookup_mem halo)
      simp [keyOf, ← hk]

theorem suggestState_seenInv (sp : SymSpell) (normalized : List Char)
    (hv : ValidWords sp.words) : SeenInv (suggestState sp normalized) := by
  unfold suggestState
  cases alookup normalized sp.deletes with
  | none => exact foldDeletes_seenInv hv _ _ (initialState_seenInv sp normalized hv)
  | some candidates =>
    exact processCandidates_seenInv hv _ _
      (foldDeletes_seenInv hv _ _ (initialState_seenInv sp normalized hv))

/-- With a valid dictionary the returned suggestions have pairwise distinct
`term` values. -/
theorem suggestions_term_pairwise (sp : SymSpell) (word : List Char) (maxSuggestions : Nat)
    (hv : ValidWords sp.words) :
    List.Pairwise (fun a b : Suggestion => a.term ≠ b.term)
      (sp.suggestions word maxSuggestions) := by
  have hsi := suggestState_seenInv sp (normalizeWord word) hv
  have hnd : ((List.insertionSort suggLE (suggestState sp (normalizeWord word)).1).map
      keyOf).Nodup := by
    have hperm := List.perm_insertionSort suggLE (suggestState sp (normalizeWord word)).1
    exact ((hperm.map keyOf).nodup_iff).mpr hsi.1
  have hnd2 : ((sp.suggestions word maxSuggestions).map keyOf).Nodup := by
    unfold SymSpell.suggestions
    rw [List.map_take]
    exact List.Nodup.sublist (List.take_sublist _ _) hnd
  have hp : List.Pairwise (fun a b : Suggestion => keyOf a ≠ keyOf b)
      (sp.suggestions word maxSuggestions) := List.pairwise_map.mp hnd2
  exact hp.imp (fun h hteq => h (by rw [keyOf, keyOf, hteq]))

/-! ### Corrector lemmas -/

theorem gatePass_eq_claimGateB (st : Checker) (t : List Char) (s : Suggestion) :
    gatePass st.frequencyThreshold (st.symspell.getFrequency t) s = claimGateB st t s := by
  unfold gatePass claimGateB SymSpell.getFrequency
  cases alookup (normalizeWord t) st.symspell.words <;> rfl

theorem correctionLoop_eq_find (th : ℚ) (f : Option Nat) :
    ∀ l : List Suggestion,
      correctionLoop th f l =
        (l.find? (fun s => decide (s.distance ≤ 1) && gatePass th f s)).map Suggestion.term := by
  intro l
  induction l with
  | nil => rfl
  | cons s rest ih =>
    by_cases hp : (decide (s.distance ≤ 1) && gatePass th f s) = true
    · rw [correctionLoop, if_pos hp]
      simp [List.find?, hp]
    · have hf : (decide (s.distance ≤ 1) && gatePass th f s) = false := by simpa using hp
      rw [correctionLoop, if_neg hp, ih]
      simp [List.find?, hf]

theorem batchCorrectionLoop_eq (th : ℚ) (f : Option Nat) (w : List Char) :
    ∀ l : List Suggestion, batchCorrectionLoop th f w l = (correctionLoop th f l).getD w := by
  intro l
  induction l with
  | nil => rfl
  | cons s rest ih =>
    by_cases hp : (decide (s.distance ≤ 1) && gatePass th f s) = true
    · rw [batchCorrectionLoop, if_pos hp, correctionLoop, if_pos hp]
      rfl
    · rw [batchCorrectionLoop, if_neg hp, correctionLoop, if_neg hp, ih]

/-- The per-token body of the batch path agrees with `correct_if_unknown`
(the batch path does not drop the `f0` branch). -/
theorem batchBody_eq (st : Checker) (g : Option Bool) (w : List Char) :
    batchBody st (g.getD false) w = st.correct_if_unknown w g := by
  unfold batchBody Checker.correct_if_unknown
  by_cases h1 : (g.getD false && st.guards.isProtectedNormalized w (normalizeWord w)) = true
  · rw [if_pos h1, if_pos h1]
  · rw [if_neg h1, if_neg h1]
    by_cases h2 : headIsExact (st.symspell.suggestions w 5) = true
    · rw [if_pos h2, if_pos h2]
    · rw [if_neg h2, if_neg h2, batchCorrectionLoop_eq]
      cases correctionLoop st.frequencyThreshold (st.symspell.getFrequency w)
        (st.symspell.suggestions w 5) <;> rfl

/-- C4: `correct_tokens` is the elementwise map of `correct_if_unknown`:
the result has the length of the input and its `i`-th element is
`correct_if_unknown` of the `i`-th token, in order. -/
theorem correct_tokens_spec (st : Checker) (xs : List (List Char)) (g : Option Bool) :
    st.correct_tokens xs g = xs.map (fun w => st.correct_if_unknown w g) ∧
    (st.correct_tokens xs g).length = xs.length ∧
    ∀ i : Nat, (st.correct_tokens xs g)[i]? =
      (xs[i]?).map (fun w => st.correct_if_unknown w g) := by
  have hmap : st.correct_tokens xs g = xs.map (fun w => st.correct_if_unknown w g) := by
    unfold Checker.correct_tokens
    rw [show batchBody st (g.getD false) = fun w => st.correct_if_unknown w g from
      funext (batchBody_eq st g)]
  refine ⟨hmap, ?_, ?_⟩
  · rw [hmap, List.length_map]
  · intro i
    rw [hmap, List.getElem?_map]

/-- C3: `correct_if_unknown(q, g)` returns `q` unchanged whenever
`is_known(q)` holds (i.e. `normalize(q)` is a key of `words`), for either
guard flag. -/
theorem correct_if_unknown_known (st : Checker) (q : List Char)
    (h : st.symspell.contains q = true) (g : Option Bool) :
    st.correct_if_unknown q g = q := by
  unfold SymSpell.contains at h
  rw [Option.isSome_iff_exists] at h
  obtain ⟨entry, halo⟩ := h
  unfold Checker.correct_if_unknown
  by_cases hg : (g.getD false && st.guards.isProtectedNormalized q (normalizeWord q)) = true
  · rw [if_pos hg]
  · rw [if_neg hg, if_pos (headIsExact_of_known halo)]

/-- C1: for a token that is neither guard-protected nor has a distance-0
suggestion, `correct_if_unknown` returns the first suggestion in ranked
order with distance at most 1 passing the frequency gate (`t` unchanged if
none passes), and a changed token is always within Levenshtein distance 1
of `normalize(t)`. -/
theorem correct_if_unknown_spec (st : Checker) (hv : ValidWords st.symspell.words)
    (t : List Char) (g : Option Bool)
    (hprot : st.guards.isProtectedNormalized t (normalizeWord t) = false)
    (hno0 : ∀ s ∈ st.symspell.suggestions t 5, s.distance ≠ 0) :
    st.correct_if_unknown t g = specFirstCorrection st t ∧
    (st.correct_if_unknown t g ≠ t →
      lev (normalizeWord t) (normalizeWord (st.correct_if_unknown t g)) ≤ 1) := by
  have hmain : st.correct_if_unknown t g = specFirstCorrection st t := by
    unfold Checker.correct_if_unknown specFirstCorrection
    rw [if_neg (by rw [hprot, Bool.and_false]; exact Bool.false_ne_true)]
    have hhead : headIsExact (st.symspell.suggestions t 5) = false := by
      cases hs : st.symspell.suggestions t 5 with
      | nil => rfl
      | cons s rest =>
        have : s.distance ≠ 0 := hno0 s (by rw [hs]; exact List.mem_cons_self _ _)
        simp [headIsExact, this]
    rw [if_neg (by rw [hhead]; exact Bool.false_ne_true)]
    rw [correctionLoop_eq_find]
    rw [show (fun s : Suggestion => decide (s.distance ≤ 1) &&
        gatePass st.frequencyThreshold (st.symspell.getFrequency t) s) =
        (fun s : Suggestion => decide (s.distance ≤ 1) && claimGateB st t s) from
      funext (fun s => by rw [gatePass_eq_claimGateB])]
    cases (st.symspell.suggestions t 5).find?
        (fun s => decide (s.distance ≤ 1) && claimGateB st t s) <;> rfl
  refine ⟨hmain, ?_⟩
  intro hne
  rw [hmain] at hne ⊢
  unfold specFirstCorrection at hne ⊢
  cases hfind : (st.symspell.suggestions t 5).find?
      (fun s => decide (s.distance ≤ 1) && claimGateB st t s) with
  | none =>
    rw [hfind] at hne
    simp at hne
  | some s =>
    show lev (normalizeWord t) (normalizeWord s.term) ≤ 1
    have hmem : s ∈ st.symspell.suggestions t 5 := List.mem_of_find?_eq_some hfind
    have hpred := List.find?_some hfind
    rw [Bool.and_eq_true, decide_eq_true_iff] at hpred
    obtain ⟨k, e, halo, hterm, _, hdist, _⟩ := suggestions_sugProp st.symspell t 5 s hmem
    have hk : k = normalizeWord e.canonical := hv _ (alookup_mem halo)
    calc lev (normalizeWord t) (normalizeWord s.term) = s.distance := by
          rw [hdist, hterm, ← hk]
      _ ≤ 1 := hpred.1

/-! ### Structure of the deletes index -/

theorem mem_setInsert {x k : List Char} {s : List (List Char)} :
    x ∈ setInsert k s ↔ x ∈ s ∨ x = k := by
  unfold setInsert
  by_cases h : k ∈ s
  · rw [if_pos h]
    constructor
    · exact Or.inl
    · intro hx
      rcases hx with hx | hx
      · exact hx
      · rw [hx]; exact h
  · rw [if_neg h]
    simp

theorem mem_foldl_setInsert :
    ∀ (l : List (List Char)) (acc : List (List Char)) (x : List Char),
      x ∈ l.foldl (fun a d => setInsert d a) acc ↔ x ∈ acc ∨ x ∈ l := by
  intro l
  induction l with
  | nil => intro acc x; simp
  | cons d ds ih =>
    intro acc x
    rw [List.foldl_cons, ih, mem_setInsert]
    simp
    tauto

theorem generateDeletes_length {w d : List Char} (h : d ∈ generateDeletes w) :
    d.length + 1 = w.length := by
  unfold generateDeletes at h
  rcases List.mem_map.mp h with ⟨i, hi, rfl⟩
  rw [List.mem_range] at hi
  exact List.length_eraseIdx_add_one hi

theorem gdStep_length (L : Nat) :
    ∀ (items processed acc : List (List Char)),
      (∀ x ∈ items, x.length ≤ L) → (∀ y ∈ acc, y.length < L) →
      (∀ y ∈ (gdStep items processed acc).2.1, y.length < L) ∧
      (∀ x ∈ (gdStep items processed acc).2.2, x.length ≤ L) := by
  intro items
  induction items with
  | nil =>
    intro processed acc _ hacc
    exact ⟨hacc, by simp [gdStep]⟩
  | cons item rest ih =>
    intro processed acc hitems hacc
    rw [gdStep]
    by_cases hmem : item ∈ processed
    · rw [if_pos hmem]
      exact ih processed acc (fun x hx => hitems x (List.mem_cons_of_mem _ hx)) hacc
    · rw [if_neg hmem]
      have hitem : item.length ≤ L := hitems item (List.mem_cons_self _ _)
      have hdels : ∀ d ∈ generateDeletes item, d.length < L := by
        intro d hd
        have := generateDeletes_length hd
        omega
      have hacc' : ∀ y ∈ (generateDeletes item).foldl (fun a d => setInsert d a) acc,
          y.length < L := by
        intro y hy
        rcases (mem_foldl_setInsert _ _ _).mp hy with hy | hy
        · exact hacc y hy
        · exact hdels y hy
      have hrest := ih (item :: processed) _
        (fun x hx => hitems x (List.mem_cons_of_mem _ hx)) hacc'
      refine ⟨hrest.1, ?_⟩
      intro x hx
      rcases List.mem_append.mp hx with hx | hx
      · exact le_of_lt (hdels x (List.mem_of_mem_filter hx))
      · exact hrest.2 x hx

theorem gdLoop_length (L : Nat) :
    ∀ (n : Nat) (queue processed acc : List (List Char)),
      (∀ x ∈ queue, x.length ≤ L) → (∀ y ∈ acc, y.length < L) →
      ∀ y ∈ gdLoop n queue processed acc, y.length < L := by
  intro n
  induction n with
  | zero => intro queue processed acc _ hacc; exact hacc
  | succ n ih =>
    intro queue processed acc hq hacc
    rw [gdLoop]
    have hstep := gdStep_length L queue processed acc hq hacc
    exact ih _ _ _ hstep.2 hstep.1

/-- Every delete variant recorded by `get_deletes` is strictly shorter than
the word, hence in particular distinct from it. -/
theorem getDeletes_length {w : List Char} {ed : Nat} :
    ∀ d ∈ getDeletes w ed, d.length < w.length := by
  unfold getDeletes
  by_cases h : ed = 0
  · rw [if_pos h]; simp
  · rw [if_neg h]
    exact gdLoop_length w.length ed [w] [] []
      (by intro x hx; rw [List.mem_singleton] at hx; rw [hx])
      (by simp)

theorem alookup_ainsert {β : Type} (k k' : List Char) (v : β) :
    ∀ m : List (List Char × β),
      alookup k' (ainsert k v m) = if k' = k then some v else alookup k' m := by
  intro m
  induction m with
  | nil => by_cases h : k' = k <;> simp [ainsert, alookup, h]
  | cons p rest ih =>
    obtain ⟨k0, v0⟩ := p
    by_cases h0 : k = k0
    · subst h0
      by_cases h : k' = k <;> simp [ainsert, alookup, h]
    · by_cases h : k' = k0
      · subst h
        have hk : ¬ k' = k := fun he => h0 he.symm
        simp [ainsert, alookup, h0, hk]
      · simp [ainsert, alookup, h0, h, ih]

theorem mem_ainsert {β : Type} {k : List Char} {v : β} {p : List Char × β} :
    ∀ {m : List (List Char × β)}, p ∈ ainsert k v m → p = (k, v) ∨ p ∈ m := by
  intro m
  induction m with
  | nil =>
    intro h
    rw [ainsert, List.mem_singleton] at h
    exact Or.inl h
  | cons q rest ih =>
    obtain ⟨k0, v0⟩ := q
    intro h
    rw [ainsert] at h
    by_cases h0 : k = k0
    · rw [if_pos h0] at h
      rcases List.mem_cons.mp h with h | h
      · exact Or.inl h
      · exact Or.inr (List.mem_cons_of_mem _ h)
    · rw [if_neg h0] at h
      rcases List.mem_cons.mp h with h | h
      · exact Or.inr (h ▸ List.mem_cons_self _ _)
      · rcases ih h with h | h
        · exact Or.inl h
        · exact Or.inr (List.mem_cons_of_mem _ h)

theorem dinsert_inv {m : List (List Char × List (List Char))} {d k : List Char}
    (hm : DeletesInv m) (hdk : d.length < k.length) : DeletesInv (dinsert d k m) := by
  intro p hp k' hk'
  rcases mem_ainsert hp with hp | hp
  · subst hp
    rcases mem_setInsert.mp hk' with hk' | hk'
    · cases halo : alookup d m with
      | none => rw [halo] at hk'; simp at hk'
      | some s0 =>
        rw [halo] at hk'
        exact hm _ (alookup_mem halo) k' hk'
    · rw [hk']
      exact hdk
  · exact hm p hp k' hk'

theorem foldl_dinsert_inv {normalized : List Char} :
    ∀ (ds : List (List Char)) (m : List (List Char × List (List Char))),
      (∀ d ∈ ds, d.length < normalized.length) → DeletesInv m →
      DeletesInv (ds.foldl (fun m d => dinsert d normalized m) m) := by
  intro ds
  induction ds with
  | nil => intro m _ hm; exact hm
  | cons d ds ih =>
    intro m hds hm
    rw [List.foldl_cons]
    exact ih _ (fun d' hd' => hds d' (List.mem_cons_of_mem _ hd'))
      (dinsert_inv hm (hds d (List.mem_cons_self _ _)))

theorem addWord_deletesInv {sp : SymSpell} {normalized canonical : List Char}
    {frequency : Nat} (h : DeletesInv sp.deletes) :
    DeletesInv (sp.addWord normalized canonical frequency).deletes := by
  unfold SymSpell.addWord
  exact foldl_dinsert_inv _ _ (fun d hd => getDeletes_length d hd) h

theorem applyCalls_deletesInv :
    ∀ (calls : List (List Char × List Char × Nat)) (sp : SymSpell),
      DeletesInv sp.deletes → DeletesInv (applyCalls sp calls).deletes := by
  intro calls
  induction calls with
  | nil => intro sp h; exact h
  | cons c rest ih =>
    obtain ⟨n, cc, f⟩ := c
    intro sp h
    exact ih _ (addWord_deletesInv h)

theorem applyCalls_maxEditDistance :
    ∀ (calls : List (List Char × List Char × Nat)) (sp : SymSpell),
      (applyCalls sp calls).maxEditDistance = sp.maxEditDistance := by
  intro calls
  induction calls with
  | nil => intro sp; rfl
  | cons c rest ih =>
    obtain ⟨n, cc, f⟩ := c
    intro sp
    rw [applyCalls, ih]
    rfl

theorem alookup_addWord (sp : SymSpell) (n c : List Char) (f : Nat) (k : List Char) :
    alookup k (sp.addWord n c f).words =
      if k = n then some { canonical := c, frequency := f } else alookup k sp.words := by
  unfold SymSpell.addWord
  exact alookup_ainsert n k _ sp.words

theorem gdLoop_nil : ∀ (n : Nat) (processed acc : List (List Char)),
    gdLoop n [] processed acc = acc := by
  intro n
  induction n with
  | zero => intro processed acc; rfl
  | succ n ih => intro processed acc; rw [gdLoop]; exact ih _ _

theorem getDeletes_nil (ed : Nat) : getDeletes [] ed = [] := by
  unfold getDeletes
  by_cases h : ed = 0
  · rw [if_pos h]
  · rw [if_neg h]
    obtain ⟨n, rfl⟩ : ∃ n, ed = n + 1 := ⟨ed - 1, by omega⟩
    rw [gdLoop]
    rw [show gdStep [[]] [] [] =
      (([[]] : List (List Char)), ([] : List (List Char)), ([] : List (List Char))) from rfl]
    exact gdLoop_nil n _ _

/-! ### Guards loader characterization -/

theorem loadSymbolsLine_mem (g : Guards) (line x : List Char) :
    x ∈ (loadSymbolsLine g line).symbolsSet ↔
      x ∈ g.symbolsSet ∨ (keepLine line = true ∧ symbolForm line x) := by
  unfold loadSymbolsLine keepLine symbolForm
  by_cases hkeep : (!(rustTrim line).isEmpty && !startsWithHash (rustTrim line)) = true
  · rw [if_pos hkeep]
    by_cases hhyp : (rustTrim line).contains '-' = true
    · rw [if_pos hhyp]
      dsimp only
      rw [mem_setInsert, mem_setInsert, mem_setInsert, mem_setInsert]
      constructor
      · intro h
        rcases h with ⟨⟨⟨h | h⟩ | h⟩ | h⟩ | h
        · exact Or.inl h
        · exact Or.inr ⟨hkeep, Or.inl h⟩
        · exact Or.inr ⟨hkeep, Or.inr (Or.inl h)⟩
        · exact Or.inr ⟨hkeep, Or.inr (Or.inr ⟨hhyp, Or.inl h⟩)⟩
        · exact Or.inr ⟨hkeep, Or.inr (Or.inr ⟨hhyp, Or.inr h⟩)⟩
      · intro h
        rcases h with h | ⟨_, h | h | ⟨_, h | h⟩⟩
        · exact Or.inl (Or.inl (Or.inl (Or.inl h)))
        · exact Or.inl (Or.inl (Or.inl (Or.inr h)))
        · exact Or.inl (Or.inl (Or.inr h))
        · exact Or.inl (Or.inr h)
        · exact Or.inr h
    · rw [if_neg hhyp]
      dsimp only
      rw [mem_setInsert, mem_setInsert]
      constructor
      · intro h
        rcases h with ⟨h | h⟩ | h
        · exact Or.inl h
        · exact Or.inr ⟨hkeep, Or.inl h⟩
        · exact Or.inr ⟨hkeep, Or.inr (Or.inl h)⟩
      · intro h
        rcases h with h | ⟨_, h | h | ⟨hc, _⟩⟩
        · exact Or.inl (Or.inl h)
        · exact Or.inl (Or.inr h)
        · exact Or.inr h
        · exact absurd hc hhyp
  · rw [if_neg hkeep]
    constructor
    · exact Or.inl
    · intro h
      rcases h with h | ⟨hk, _⟩
      · exact h
      · exact absurd hk hkeep

theorem loadSymbols_mem :
    ∀ (lines : List (List Char)) (g : Guards) (x : List Char),
      x ∈ (g.loadSymbols lines).symbolsSet ↔
        x ∈ g.symbolsSet ∨ ∃ l ∈ lines, keepLine l = true ∧ symbolForm l x := by
  intro lines
  induction lines with
  | nil => intro g x; simp [Guards.loadSymbols]
  | cons line rest ih =>
    intro g x
    rw [Guards.loadSymbols, ih, loadSymbolsLine_mem]
    constructor
    · intro h
      rcases h with (h | ⟨hk, hx⟩) | ⟨l, hl, hkl, hxl⟩
      · exact Or.inl h
      · exact Or.inr ⟨line, List.mem_cons_self _ _, hk, hx⟩
      · exact Or.inr ⟨l, List.mem_cons_of_mem _ hl, hkl, hxl⟩
    · intro h
      rcases h with h | ⟨l, hl, hkl, hxl⟩
      · exact Or.inl (Or.inl h)
      · rcases List.mem_cons.mp hl with rfl | hl
        · exact Or.inl (Or.inr ⟨hkl, hxl⟩)
        · exact Or.inr ⟨l, hl, hkl, hxl⟩

theorem loadCasLine_mem (g : Guards) (line x : List Char) :
    x ∈ (loadCasLine g line).casSet ↔
      x ∈ g.casSet ∨ (keepLine line = true ∧ x = rustTrim line) := by
  unfold loadCasLine keepLine
  by_cases hkeep : (!(rustTrim line).isEmpty && !startsWithHash (rustTrim line)) = true
  · rw [if_pos hkeep]
    dsimp only
    rw [mem_setInsert]
    constructor
    · intro h
      rcases h with h | h
      · exact Or.inl h
      · exact Or.inr ⟨hkeep, h⟩
    · intro h
      rcases h with h | ⟨_, h⟩
      · exact Or.inl h
      · exact Or.inr h
  · rw [if_neg hkeep]
    constructor
    · exact Or.inl
    · intro h
      rcases h with h | ⟨hk, _⟩
      · exact h
      · exact absurd hk hkeep

theorem loadCas_mem :
    ∀ (lines : List (List Char)) (g : Guards) (x : List Char),
      x ∈ (g.loadCas lines).casSet ↔
        x ∈ g.casSet ∨ ∃ l ∈ lines, keepLine l = true ∧ x = rustTrim l := by
  intro lines
  induction lines with
  | nil => intro g x; simp [Guards.loadCas]
  | cons line rest ih =>
    intro g x
    rw [Guards.loadCas, ih, loadCasLine_mem]
    constructor
    · intro h
      rcases h with (h | ⟨hk, hx⟩) | ⟨l, hl, hkl, hxl⟩
      · exact Or.inl h
      · exact Or.inr ⟨line, List.mem_cons_self _ _, hk, hx⟩
      · exact Or.inr ⟨l, List.mem_cons_of_mem _ hl, hkl, hxl⟩
    · intro h
      rcases h with h | ⟨l, hl, hkl, hxl⟩
      · exact Or.inl (Or.inl h)
      · rcases List.mem_cons.mp hl with rfl | hl
        · exact Or.inl (Or.inr ⟨hkl, hxl⟩)
        · exact Or.inr ⟨l, hl, hkl, hxl⟩

/-! ### The claims -/

/-- C1: for every loaded engine state (valid dictionary) and every token `t`
that is not guard-protected and has no distance-0 suggestion,
`correct_if_unknown(t, g)` returns the term of the first suggestion in
ranked order whose distance is at most 1 and whose frequency passes the gate
(`freq ≥ threshold` when `normalize(t)` is not a key of `words`;
`freq ≥ threshold · f0` when `words[normalize(t)]` has frequency `f0`), and
returns `t` unchanged when no suggestion passes; it never returns a term
whose distance from `normalize(t)` exceeds 1. -/
theorem claim_C1 (st : Checker) (hv : ValidWords st.symspell.words)
    (t : List Char) (g : Option Bool)
    (hprot : st.guards.isProtectedNormalized t (normalizeWord t) = false)
    (hno0 : ∀ s ∈ st.symspell.suggestions t 5, s.distance ≠ 0) :
    st.correct_if_unknown t g = specFirstCorrection st t ∧
    (st.correct_if_unknown t g ≠ t →
      lev (normalizeWord t) (normalizeWord (st.correct_if_unknown t g)) ≤ 1) :=
  correct_if_unknown_spec st hv t g hprot hno0

theorem claim_C1_witness :
    ValidWords ckW.symspell.words ∧
    ckW.guards.isProtectedNormalized wThee (normalizeWord wThee) = false ∧
    (∀ s ∈ ckW.symspell.suggestions wThee 5, s.distance ≠ 0) ∧
    (ckW.correct_if_unknown wThee none = specFirstCorrection ckW wThee ∧
      (ckW.correct_if_unknown wThee none ≠ wThee →
        lev (normalizeWord wThee) (normalizeWord (ckW.correct_if_unknown wThee none)) ≤ 1)) :=
  ⟨by decide, by decide, by decide, claim_C1 ckW (by decide) wThee none (by decide) (by decide)⟩

/-- C2: for every dictionary state in which every key of `words` equals the
normalization of its entry's canonical form, every `Suggestion` returned by
`suggest(q, max)` has `distance ≤ max_edit_distance` and its distance field
equals the Levenshtein distance over code points between `normalize(q)` and
`normalize(term)`. -/
theorem claim_C2 (sp : SymSpell) (hv : ValidWords sp.words) (q : List Char) (max : Nat) :
    ∀ s ∈ sp.suggestions q max,
      s.distance ≤ sp.maxEditDistance ∧
      s.distance = lev (normalizeWord q) (normalizeWord s.term) := by
  intro s hs
  obtain ⟨k, e, halo, hterm, _, hdist, hle⟩ := suggestions_sugProp sp q max s hs
  refine ⟨hle, ?_⟩
  rw [hdist, hterm, ← hv _ (alookup_mem halo)]

theorem claim_C2_witness :
    ValidWords ckW.symspell.words ∧
    ∀ s ∈ ckW.symspell.suggestions wThee 5,
      s.distance ≤ ckW.symspell.maxEditDistance ∧
      s.distance = lev (normalizeWord wThee) (normalizeWord s.term) :=
  ⟨by decide, claim_C2 ckW.symspell (by decide) wThee 5⟩

/-- C3: for every loaded engine state and every word `q` whose normalization
is a key of `words` (`is_known(q)`), `correct_if_unknown(q, g)` returns `q`
unchanged for either value of `g`. -/
theorem claim_C3 (st : Checker) (q : List Char)
    (h : st.symspell.contains q = true) (g : Option Bool) :
    st.correct_if_unknown q g = q :=
  correct_if_unknown_known st q h g

theorem claim_C3_witness :
    ckW.symspell.contains wThe = true ∧ ckW.correct_if_unknown wThe (some true) = wThe :=
  ⟨by decide, claim_C3 ckW wThe (by decide) (some true)⟩

/-- C4: for every loaded engine state, token list `xs` and guard flag `g`,
`correct_tokens(xs, g)` has the length of `xs` and its `i`-th element is
`correct_if_unknown(xs[i], g)`, in the same order. -/
theorem claim_C4 (st : Checker) (xs : List (List Char)) (g : Option Bool) :
    st.correct_tokens xs g = xs.map (fun w => st.correct_if_unknown w g) ∧
    (st.correct_tokens xs g).length = xs.length ∧
    ∀ i : Nat, (st.correct_tokens xs g)[i]? =
      (xs[i]?).map (fun w => st.correct_if_unknown w g) :=
  correct_tokens_spec st xs g

/-- C5 (counterexample): with dictionary `{a}` at `D = 1`, the query whose
normalized form is empty returns the suggestion `a`, not the empty list:
`deletes[""]` holds every word of length `≤ D`. -/
theorem claim_C5_counterexample :
    normalizeWord [] = [] ∧ spE.suggestions [] 5 ≠ [] := by
  constructor
  · rfl
  · decide

/-- C5 (amended): `suggest(q, max)` returns the empty list whenever the
normalized query is empty, provided the empty string is a key of neither
`words` nor `deletes` (equivalently, no dictionary word is within
`max_edit_distance` deletions of the empty string). -/
theorem claim_C5 (sp : SymSpell) (q : List Char) (max : Nat)
    (hq : normalizeWord q = [])
    (hw : alookup [] sp.words = none)
    (hd : alookup [] sp.deletes = none) :
    sp.suggestions q max = [] := by
  unfold SymSpell.suggestions suggestState initialState
  rw [hq, hw, hd, getDeletes_nil]
  exact List.take_nil

theorem claim_C5_witness :
    normalizeWord [] = ([] : List Char) ∧
    alookup [] spNE.words = none ∧
    alookup [] spNE.deletes = none ∧
    spNE.suggestions [] 5 = [] :=
  ⟨rfl, by decide, by decide, claim_C5 spNE [] 5 rfl (by decide) (by decide)⟩

/-- C6 (counterexample): two `add_word` calls with key `a`, frequencies 5
then 3: the retained entry is the second (last write wins), not the
higher-frequency first. -/
theorem claim_C6_counterexample :
    alookup ['a'] spC6.words = some { canonical := ['y'], frequency := 3 } ∧
    alookup ['a'] spC6.words ≠ some { canonical := ['x'], frequency := 5 } := by
  constructor
  · decide
  · decide

/-- C6 (amended): for every sequence of `add_word` calls, the `WordEntry`
retained in `words` for a key is the one supplied by the most recent call
with that key (`HashMap::insert` replaces unconditionally); calls never
combine or compare frequencies. -/
theorem claim_C6 :
    ∀ (calls : List (List Char × List Char × Nat)) (sp : SymSpell) (k : List Char),
      alookup k (applyCalls sp calls).words =
        match lastEntryFor k calls with
        | some (c, f) => some { canonical := c, frequency := f }
        | none => alookup k sp.words := by
  intro calls
  induction calls with
  | nil => intro sp k; rfl
  | cons call rest ih =>
    obtain ⟨n, c, f⟩ := call
    intro sp k
    rw [applyCalls, ih, lastEntryFor]
    cases lastEntryFor k rest with
    | some r => obtain ⟨rc, rf⟩ := r; rfl
    | none =>
      rw [alookup_addWord]
      by_cases hn : n = k
      · rw [if_pos hn.symm, if_pos hn]
      · rw [if_neg (fun he => hn he.symm), if_neg hn]

/-- C7 (counterexample): `load_cas` with the single kept line `AB` stores
only the trimmed line itself; neither the lowercase nor the normalized form
`ab` is added to any protected set, so the line does not contribute three
entries. -/
theorem claim_C7_counterexample :
    keepLine ['A', 'B'] = true ∧
    rustLower (rustTrim ['A', 'B']) = ['a', 'b'] ∧
    normalizeWord ['A', 'B'] = ['a', 'b'] ∧
    gAB.casSet = [['A', 'B']] ∧
    ['a', 'b'] ∉ gAB.casSet ∧ ['a', 'b'] ∉ gAB.symbolsSet ∧
    ['a', 'b'] ∉ gAB.skusSet ∧ ['a', 'b'] ∉ gAB.speciesSet := by
  refine ⟨by decide, by decide, by decide, by decide, by decide, by decide, by decide, by decide⟩

/-- C7 (amended): each kept line (non-empty after trimming, not starting
with `#`) contributes to `symbols_set` exactly the trimmed line and its
lowercase, plus the hyphen-stripped variant and its lowercase when the line
contains `-`; `load_cas` contributes only the trimmed line to `cas_set`.
The normalized form is not added by either loader. -/
theorem claim_C7 :
    (∀ (g : Guards) (lines : List (List Char)) (x : List Char),
      x ∈ (g.loadSymbols lines).symbolsSet ↔
        x ∈ g.symbolsSet ∨ ∃ l ∈ lines, keepLine l = true ∧ symbolForm l x) ∧
    (∀ (g : Guards) (lines : List (List Char)) (x : List Char),
      x ∈ (g.loadCas lines).casSet ↔
        x ∈ g.casSet ∨ ∃ l ∈ lines, keepLine l = true ∧ x = rustTrim l) :=
  ⟨fun g lines x => loadSymbols_mem lines g x, fun g lines x => loadCas_mem lines g x⟩

/-- C8 (counterexample): with entries `ab ↦ (x, 1)` and `ac ↦ (x, 2)` at
`D = 1`, `suggest("a", 5)` returns two suggestions that both carry the term
`x`, so the output is not free of duplicate terms. -/
theorem claim_C8_counterexample :
    ¬ (List.Pairwise suggLE (spC8.suggestions ['a'] 5) ∧
       List.Pairwise (fun a b : Suggestion => a.term ≠ b.term) (spC8.suggestions ['a'] 5)) := by
  decide

/-- C8 (amended): for every dictionary state whose keys are the
normalizations of their entries' canonical forms, `suggest(q, max)` is
sorted by distance ascending, then frequency descending, then term
ascending, and contains no two suggestions with the same term. -/
theorem claim_C8 (sp : SymSpell) (hv : ValidWords sp.words) (q : List Char) (max : Nat) :
    List.Pairwise suggLE (sp.suggestions q max) ∧
    List.Pairwise (fun a b : Suggestion => a.term ≠ b.term) (sp.suggestions q max) :=
  ⟨suggestions_pairwise sp q max, suggestions_term_pairwise sp q max hv⟩

theorem claim_C8_witness :
    ValidWords ckW.symspell.words ∧
    (List.Pairwise suggLE (ckW.symspell.suggestions wThee 5) ∧
     List.Pairwise (fun a b : Suggestion => a.term ≠ b.term)
       (ckW.symspell.suggestions wThee 5)) :=
  ⟨by decide, claim_C8 ckW.symspell (by decide) wThee 5⟩

/-- C9 (counterexample): after `add_word("a", ..)` at `D = 1` the empty
string is a key of the deletes map (with `{a}` as its candidate set), so
words are recorded under empty delete variants. -/
theorem claim_C9_counterexample :
    alookup [] spE.deletes = some [['a']] ∧ alookup [] spE.deletes ≠ none := by
  constructor
  · decide
  · decide

/-- C9 (amended): in every state reachable by `add_word` calls, every word
recorded under a delete variant is strictly longer than the variant (hence
`d ≠ k` always holds); the empty string can be a key, namely when a word of
length at most `max_edit_distance` is added. -/
theorem claim_C9 (D : Nat) (calls : List (List Char × List Char × Nat))
    (d : List Char) (ks : List (List Char))
    (hmem : (d, ks) ∈ (applyCalls (SymSpell.new D) calls).deletes) :
    ∀ k ∈ ks, d.length < k.length ∧ d ≠ k := by
  have hinv := applyCalls_deletesInv calls (SymSpell.new D)
    (by intro p hp; simp [SymSpell.new] at hp)
  intro k hk
  have hlen : d.length < k.length := hinv (d, ks) hmem k hk
  exact ⟨hlen, by intro he; rw [he] at hlen; omega⟩

theorem claim_C9_witness :
    (['b'], [['a', 'b']]) ∈ (applyCalls (SymSpell.new 1) callsC9).deletes ∧
    (∀ k ∈ [['a', 'b']], List.length ['b'] < k.length ∧ ['b'] ≠ k) :=
  ⟨by decide, claim_C9 1 callsC9 ['b'] [['a', 'b']] (by decide)⟩

/-- C10: for every `Guards` value, regardless of which term lists were
loaded, `is_protected(word)` is true for every word matching the hardcoded
anchored pattern `^[A-Z][A-Z0-9]{1,}[\-]?[A-Z0-9]+$` or
`^\d{2,7}-\d{2}-\d$`; the protection is unconditional and cannot be
disabled by configuration. -/
theorem claim_C10 (g : Guards) (w : List Char)
    (h : reMatch symbolPattern w = true ∨ reMatch casPattern w = true) :
    g.isProtected w = true := by
  unfold Guards.isProtected
  rcases h with h | h <;> simp [h]

theorem claim_C10_witness :
    (reMatch symbolPattern wCDK10 = true ∨ reMatch casPattern wCDK10 = true) ∧
    gAB.isProtected wCDK10 = true :=
  ⟨Or.inl (by decide), claim_C10 gAB wCDK10 (Or.inl (by decide))⟩

end Spellkit

